import Mathlib

/-!
Verification of the user-record generators in cyberwithcyril/sysadmin-security-toolkit.

The repository holds two Python scripts:
  * variant B, src/data/generators/generate_test_users.py
  * variant A, src/data/generate_users.py

Both synthesize fake user records and write them to a CSV file.  This file embeds
their pure generation logic in Lean.  Randomness (the Python random module and the
Faker library) is modelled by explicit streams of raw draws: each call that consumes
randomness reads a value from a stream and reduces it modulo the size of its range,
so a quantification over all streams covers every possible run.  Dates are modelled
as day counts from the 1970 epoch.
-/

namespace UserGen

/- ### Character and string primitives (models of the Python string operations) -/

/-- Model of the apostrophe character (written by code so the source file needs no
apostrophe literal). -/
def apos : Char := Char.ofNat 39

/-- Model of Python str.lower applied to a list of characters. -/
def pyLowerChars (cs : List Char) : List Char := cs.map Char.toLower

/-- Model of Python str.lower on a string. -/
def pyLower (s : String) : String := String.mk (pyLowerChars s.data)

/-- Helper for pyWords: accumulates the current word (reversed) while scanning. -/
def pyWordsAux (acc : List Char) : List Char → List (List Char)
  | [] => if acc.isEmpty then [] else [acc.reverse]
  | c :: cs =>
    if c.isWhitespace then
      if acc.isEmpty then pyWordsAux [] cs else acc.reverse :: pyWordsAux [] cs
    else pyWordsAux (c :: acc) cs

/-- Model of Python str.split() with no argument: split on whitespace runs,
dropping empty parts. -/
def pyWords (s : String) : List (List Char) := pyWordsAux [] s.data

/-- Model of .replace(chr(39), with nothing).replace(hyphen, with nothing):
drop every apostrophe and hyphen. -/
def stripSpecial (cs : List Char) : List Char :=
  cs.filter (fun c => !(c == apos || c == '-'))

/-- Embedding of generate_username (generate_test_users.py, lines 30-43):
lowercase the full name, split into words, take first initial plus last word
(or the single word), then strip apostrophes and hyphens.  Returns none exactly
when the Python code would raise an IndexError (no words). -/
def generate_username (full_name : String) : Option String :=
  match pyWords (pyLower full_name) with
  | [] => none
  | p0 :: rest =>
    match p0 with
    | [] => none
    | c :: _ =>
      let raw := if rest.isEmpty then p0 else c :: rest.getLastD p0
      some (String.mk (stripSpecial raw))

/-- Embedding of generate_email (generate_test_users.py, lines 45-47) with the
default domain. -/
def generate_email (username : String) : String := username ++ "@techcorp.com"

/- ### Decimal rendering of numbers (model of Python f-string integer formatting) -/

/-- The character for the decimal digit n % 10. -/
def mkDigit (n : Nat) : Char := Char.ofNat (48 + n % 10)

/-- Fuel-driven digit expansion of a natural number, most significant first. -/
def natDigitsAux : Nat → Nat → List Char
  | 0, _ => []
  | fuel + 1, n =>
    if n < 10 then [mkDigit n] else natDigitsAux fuel (n / 10) ++ [mkDigit (n % 10)]

/-- Decimal rendering of a natural number, the model of the f-string suffix
interpolation in generate_users. -/
def natRepr (n : Nat) : String := String.mk (natDigitsAux (n + 1) n)

/- ### Username collision resolution (generate_test_users.py, lines 84-89) -/

/-- Embedding of the suffix search loop: starting at candidate k, return the first
suffix whose combination with the base is unused.  Fuel bounds the recursion; the
run always supplies enough fuel (see the termination lemmas below). -/
def findSuffix (used : List String) (base : String) : Nat → Nat → Option Nat
  | 0, _ => none
  | fuel + 1, k =>
    if base ++ natRepr k ∈ used then findSuffix used base fuel (k + 1) else some k

/-- Embedding of the duplicate-username handling in generate_users: keep the base
if unused, otherwise append the first free integer suffix starting from 2. -/
def resolveUsername (used : List String) (base : String) : String :=
  if base ∈ used then
    match findSuffix used base (used.length + 1) 2 with
    | some k => base ++ natRepr k
    | none => base
  else base

/- ### Vocabularies of variant B (generate_test_users.py, lines 18-28) -/

/-- The DEPARTMENTS constant of generate_test_users.py. -/
def DEPARTMENTS : List String :=
  ["IT", "Sales", "Marketing", "Finance", "HR", "Operations", "Legal"]

/-- The GROUPS dictionary of generate_test_users.py, as an association list. -/
def GROUPS : List (String × List String) :=
  [("IT", ["developers", "sysadmins", "devops", "support"]),
   ("Sales", ["sales", "account_managers", "business_dev"]),
   ("Marketing", ["marketing", "content", "social_media"]),
   ("Finance", ["finance", "accounting", "analysts"]),
   ("HR", ["hr", "recruiters", "training"]),
   ("Operations", ["operations", "logistics", "facilities"]),
   ("Legal", ["legal", "compliance"])]

/- ### Random primitives, modelled with explicit raw draws -/

/-- Model of random.randint(a, b): inclusive uniform range, driven by the raw
draw r reduced into the range. -/
def randint (a b r : Nat) : Nat := a + r % (b - a + 1)

/-- Model of random.sample(l, k): sample k elements without replacement, one raw
draw per pick; each pick removes the chosen element from the population.  (The
populations passed by the script are duplicate-free, so removal by value agrees
with removal by position.) -/
def sampleAux : List String → Nat → List Nat → List String
  | _, 0, _ => []
  | _, _ + 1, [] => []
  | [], _ + 1, _ :: _ => []
  | a :: l, k + 1, r :: rs =>
    let x := (a :: l).getD (r % (a :: l).length) ""
    x :: sampleAux ((a :: l).erase x) k rs

/-- Code-point lexicographic order on character lists, the model of the Python
string comparison used by sorted(). -/
def lexLeChars : List Char → List Char → Bool
  | [], _ => true
  | _ :: _, [] => false
  | a :: as, b :: bs =>
    if a.toNat = b.toNat then lexLeChars as bs else decide (a.toNat < b.toNat)

/-- Code-point lexicographic order on strings. -/
def lexLe (a b : String) : Bool := lexLeChars a.data b.data

/-- Model of Python sorted() on strings: the ascending lexicographic reordering. -/
def sortStrings (l : List String) : List String :=
  List.insertionSort (fun a b => lexLe a b = true) l

/-- Model of the semicolon str.join. -/
def joinSemi : List String → String
  | [] => ""
  | [s] => s
  | s :: rest => s ++ ";" ++ joinSemi rest

/-- Embedding of select_groups (generate_test_users.py, lines 49-54): look the
department up in GROUPS (none models the KeyError on a missing key), draw the
group count with randint, sample without replacement, join sorted with
semicolons.  r1 drives randint, r2 and r3 drive the (at most two) sample picks. -/
def select_groups (department : String) (r1 r2 r3 : Nat) : Option String :=
  match List.lookup department GROUPS with
  | none => none
  | some available =>
    let num := randint 1 (min 2 available.length) r1
    let selected := sampleAux available num [r2, r3]
    some (joinSemi (sortStrings selected))

/- ### Dates, modelled as day counts from the 1970 epoch -/

/-- Model of Faker date_between on day counts: a uniform draw from the inclusive
range, driven by the raw draw r. -/
def date_between (lo hi r : Nat) : Nat := lo + r % (hi - lo + 1)

/-- Gregorian leap-year test. -/
def isLeap (y : Nat) : Bool := y % 4 == 0 && (y % 100 != 0 || y % 400 == 0)

/-- Days in the Gregorian year y. -/
def daysInYear (y : Nat) : Nat := if isLeap y then 366 else 365

/-- Month lengths of the Gregorian year y. -/
def monthLengths (y : Nat) : List Nat :=
  [31, if isLeap y then 29 else 28, 31, 30, 31, 30, 31, 31, 30, 31, 30, 31]

/-- Walk whole years off a day count, starting from a base year. -/
def yearWalk : Nat → Nat → Nat → Nat × Nat
  | 0, y, doy => (y, doy)
  | fuel + 1, y, doy =>
    if doy < daysInYear y then (y, doy) else yearWalk fuel (y + 1) (doy - daysInYear y)

/-- Walk whole months off a day-of-year count. -/
def monthWalk : List Nat → Nat → Nat → Nat × Nat
  | [], m, d => (m, d)
  | len :: rest, m, d => if d < len then (m, d) else monthWalk rest (m + 1) (d - len)

/-- Civil date (year, month, day) of a day count from the 1970 epoch. -/
def civilOfDay (z : Nat) : Nat × Nat × Nat :=
  let p := yearWalk z 1970 z
  let q := monthWalk (monthLengths p.1) 1 p.2
  (p.1, q.1, q.2 + 1)

/-- Two zero-padded decimal digits, the model of strftime %m and %d. -/
def pad2 (n : Nat) : List Char := [mkDigit (n / 10), mkDigit n]

/-- Four zero-padded decimal digits, the model of strftime %Y. -/
def pad4 (n : Nat) : List Char :=
  [mkDigit (n / 1000), mkDigit (n / 100), mkDigit (n / 10), mkDigit n]

/-- Model of date.strftime with the %Y-%m-%d format on a civil date. -/
def isoYmd (y m d : Nat) : String :=
  String.mk (pad4 y ++ '-' :: pad2 m ++ '-' :: pad2 d)

/-- ISO rendering of a day count: convert to a civil date, then format. -/
def isoOfDay (z : Nat) : String :=
  isoYmd (civilOfDay z).1 (civilOfDay z).2.1 (civilOfDay z).2.2

/- ### The variant-B generation run (generate_test_users.py, lines 61-106) -/

/-- One output record of variant B.  The expiry is kept as a day count; rowLine
renders it. -/
structure Row where
  username : String
  fullname : String
  email : String
  department : String
  groups : String
  expiry : Nat
deriving Repr, DecidableEq

/-- The sources of randomness of a variant-B run.  fakeNames and fakeDateR model
the Faker generator (seeded with 42 at line 15, so identical in every run);
pyR models the global random module, which the script never seeds. -/
structure BStreams where
  fakeNames : Nat → String
  fakeDateR : Nat → Nat
  pyR : Nat → Nat

/-- Embedding of the generation loop of generate_users (generate_test_users.py,
lines 79-101).  Arguments: records still to produce, record index (indexes the
Faker draws), position in the unseeded random stream, usernames already used.
The expiry window day counts expLo and expHi stand for today plus six months and
today plus two years.  Per record the random module serves one draw for
random.choice(DEPARTMENTS), one for randint and num for sample, so the position
advances by 3 + pyR (ppos+1) % 2.  none models an uncaught Python exception. -/
def generate_users_rows (s : BStreams) (expLo expHi : Nat) :
    Nat → Nat → Nat → List String → Option (List Row)
  | 0, _, _, _ => some []
  | k + 1, i, ppos, used =>
    match generate_username (s.fakeNames i) with
    | none => none
    | some base =>
      let username := resolveUsername used base
      let department := DEPARTMENTS.getD (s.pyR ppos % DEPARTMENTS.length) ""
      match select_groups department (s.pyR (ppos + 1)) (s.pyR (ppos + 2)) (s.pyR (ppos + 3)) with
      | none => none
      | some groups =>
        let row : Row :=
          ⟨username, s.fakeNames i, generate_email username, department, groups,
           date_between expLo expHi (s.fakeDateR i)⟩
        match generate_users_rows s expLo expHi k (i + 1)
            (ppos + 3 + s.pyR (ppos + 1) % 2) (username :: used) with
        | none => none
        | some rest => some (row :: rest)

/-- The header row written at line 77 of generate_test_users.py. -/
def headerB : String := "username,fullname,email,department,groups,account_expiry"

/-- The CSV line of one record (csv.writer row; no field of this generator needs
quoting). -/
def rowLine (r : Row) : String :=
  r.username ++ "," ++ r.fullname ++ "," ++ r.email ++ "," ++ r.department ++ ","
    ++ r.groups ++ "," ++ isoOfDay r.expiry

/-- Embedding of a whole generate_users run: the content of the output file as a
list of lines.  The count is an integer as in Python; the while loop at line 79
runs max(count, 0) times.  The file is opened and the header written before the
loop, so even count less than or equal to zero yields a header line. -/
def generate_users_file (s : BStreams) (expLo expHi : Nat) (count : Int) :
    Option (List String) :=
  (generate_users_rows s expLo expHi count.toNat 0 0 []).map
    (fun rows => headerB :: rows.map rowLine)

/- ### The variant-A generator (generate_users.py) -/

/-- The DEPARTMENTS constant of generate_users.py (line 23). -/
def DEPARTMENTS_A : List String :=
  ["Engineering", "Sales", "Marketing", "HR", "Finance", "Operations", "IT", "Support"]

/-- The ROLES constant of generate_users.py (line 24). -/
def ROLES : List String :=
  ["Developer", "Manager", "Analyst", "Engineer", "Specialist", "Coordinator", "Director"]

/-- One record of variant A (the dict built by generate_user, lines 41-52).
start_date is kept as a day count; employee_id is the draw of
fake.unique.random_number. -/
structure ARecord where
  username : String
  first_name : String
  last_name : String
  full_name : String
  email : String
  phone : String
  department : String
  role : String
  start_date : Nat
  employee_id : Nat
deriving Repr, DecidableEq

/-- The sources of randomness of a variant-A run.  The Faker generator here is
never seeded; pyR models the global random module, also unseeded. -/
structure AStreams where
  firstNames : Nat → String
  lastNames : Nat → String
  companyEmails : Nat → String
  phones : Nat → String
  dateR : Nat → Nat
  uniqueIds : Nat → Nat
  pyR : Nat → Nat

/-- Embedding of generate_username of generate_users.py (lines 26-33): build the
three format strings, then random.choice picks one.  Python evaluates all three
f-strings before choosing, so an empty first name raises regardless of the
choice; none models that IndexError. -/
def generate_username_A (first last : String) (r : Nat) : Option String :=
  match first.data with
  | [] => none
  | c :: _ =>
    let formats := [pyLower first ++ pyLower last,
                    pyLower first ++ "." ++ pyLower last,
                    String.mk [c.toLower] ++ pyLower last]
    some (formats.getD (r % 3) "")

/-- Embedding of generate_user (generate_users.py, lines 35-52).  startLo and
startHi are the day counts of today minus two years and today.  Per record the
random module serves one draw for the username format and one each for
department and role. -/
def generate_user_A (s : AStreams) (startLo startHi i ppos : Nat) : Option ARecord :=
  match generate_username_A (s.firstNames i) (s.lastNames i) (s.pyR ppos) with
  | none => none
  | some username =>
    some { username := username
           first_name := s.firstNames i
           last_name := s.lastNames i
           full_name := s.firstNames i ++ " " ++ s.lastNames i
           email := s.companyEmails i
           phone := s.phones i
           department := DEPARTMENTS_A.getD (s.pyR (ppos + 1) % DEPARTMENTS_A.length) ""
           role := ROLES.getD (s.pyR (ppos + 2) % ROLES.length) ""
           start_date := date_between startLo startHi (s.dateR i)
           employee_id := s.uniqueIds i }

/-- Embedding of the generation loop of main in generate_users.py (lines 61-64):
n records, three random-module draws per record. -/
def generate_users_A (s : AStreams) (startLo startHi : Nat) :
    Nat → Nat → Nat → Option (List ARecord)
  | 0, _, _ => some []
  | k + 1, i, ppos =>
    match generate_user_A s startLo startHi i ppos with
    | none => none
    | some u =>
      match generate_users_A s startLo startHi k (i + 1) (ppos + 3) with
      | none => none
      | some rest => some (u :: rest)

/- ### Predicates used to state the spec properties -/

/-- The character is a decimal digit. -/
def isDigitChar (c : Char) : Bool := 48 ≤ c.toNat && c.toNat ≤ 57

/-- The character is a lowercase ASCII letter. -/
def isLowerAlpha (c : Char) : Bool := 97 ≤ c.toNat && c.toNat ≤ 122

/-- The string matches the regular expression anchored-lower-alpha-plus: nonempty
and every character a lowercase ASCII letter. -/
def matchesLower (s : String) : Bool := !s.data.isEmpty && s.data.all isLowerAlpha

/-- Every character is a decimal digit. -/
def digits09 (cs : List Char) : Bool := cs.all isDigitChar

/-- After an initial lowercase letter: accept further lowercase letters, then one
digit whose code is at least lowDigit, then only digits. -/
def disambigAux (lowDigit : Nat) : List Char → Bool
  | [] => false
  | c :: cs =>
    if isLowerAlpha c then disambigAux lowDigit cs
    else if lowDigit ≤ c.toNat && c.toNat ≤ 57 then digits09 cs
    else false

/-- The string matches lower-alpha-plus followed by a digit 2 to 9 followed by
digits (the disambiguated-username pattern of the spec). -/
def matchesDisambig29 (s : String) : Bool :=
  match s.data with
  | [] => false
  | c :: cs => isLowerAlpha c && disambigAux 50 cs

/-- The string matches lower-alpha-plus followed by a digit 1 to 9 followed by
digits (the pattern the generated disambiguated usernames actually satisfy). -/
def matchesDisambig19 (s : String) : Bool :=
  match s.data with
  | [] => false
  | c :: cs => isLowerAlpha c && disambigAux 49 cs

/-- The string holds no semicolon. -/
def noSemi (t : String) : Bool := t.data.all (fun c => !(c == ';'))

/-- Split a character list at every semicolon. -/
def splitSemiChars : List Char → List (List Char)
  | [] => [[]]
  | c :: cs =>
    if c == ';' then [] :: splitSemiChars cs
    else
      match splitSemiChars cs with
      | [] => [[c]]
      | t :: ts => (c :: t) :: ts

/-- The semicolon-separated tokens of a string. -/
def splitSemi (s : String) : List String := (splitSemiChars s.data).map String.mk

/-- The string has the ISO-8601 date shape: four digits, hyphen, two digits,
hyphen, two digits. -/
def isIsoDate (s : String) : Bool :=
  match s.data with
  | [y1, y2, y3, y4, h1, m1, m2, h2, d1, d2] =>
    isDigitChar y1 && isDigitChar y2 && isDigitChar y3 && isDigitChar y4
      && h1 == '-' && isDigitChar m1 && isDigitChar m2 && h2 == '-'
      && isDigitChar d1 && isDigitChar d2
  | _ => false

/-- The last word of the lowered full name holds at least one lowercase letter
(so the stripped username base is nonempty). -/
def lastWordHasLetter (full_name : String) : Bool :=
  match pyWords (pyLower full_name) with
  | [] => false
  | p0 :: rest => (rest.getLastD p0).any isLowerAlpha

/-- The numeric value of a digit list, most significant first; a left inverse of
natDigitsAux used to prove natRepr injective. -/
def valDigits (cs : List Char) : Nat :=
  cs.foldl (fun acc c => 10 * acc + (c.toNat - 48)) 0

/-- The columns of a variant-B row that are derived from the (seeded) Faker
stream alone: username, fullname, email and the expiry day count. -/
def fakerView (r : Row) : String × String × String × Nat :=
  (r.username, r.fullname, r.email, r.expiry)

/- ### Concrete streams and runs used by the witnesses and counterexamples -/

/-- A constant Faker name stream. -/
def bNames : Nat → String := fun _ => "John Smith"

/-- A constant Faker date-draw stream. -/
def bDates : Nat → Nat := fun _ => 0

/-- A variant-B stream bundle whose unseeded random stream always draws 0. -/
def bDemo1 : BStreams := ⟨bNames, bDates, fun _ => 0⟩

/-- The same Faker streams as bDemo1 with a different unseeded random stream. -/
def bDemo2 : BStreams := ⟨bNames, bDates, fun _ => 1⟩

/-- The rows produced by a three-record bDemo1 run with expiry window
20700 to 21200. -/
def bDemoRows : List Row :=
  [⟨"jsmith", "John Smith", "jsmith@techcorp.com", "IT", "developers", 20700⟩,
   ⟨"jsmith2", "John Smith", "jsmith2@techcorp.com", "IT", "developers", 20700⟩,
   ⟨"jsmith3", "John Smith", "jsmith3@techcorp.com", "IT", "developers", 20700⟩]

/-- The first row of bDemoRows. -/
def bRow0 : Row := ⟨"jsmith", "John Smith", "jsmith@techcorp.com", "IT", "developers", 20700⟩

/-- A variant-A stream bundle that repeats the same personal name, with all
random draws 0. -/
def aDemo : AStreams :=
  ⟨fun _ => "John", fun _ => "Smith", fun _ => "js@example.com", fun _ => "555",
   fun _ => 0, fun _ => 0, fun _ => 0⟩

/- ### Basic string and character lemmas -/

theorem data_append (s t : String) : (s ++ t).data = s.data ++ t.data := by
  cases s; cases t; rfl

theorem mk_data (s : String) : String.mk s.data = s := by
  cases s; rfl

theorem string_append_left_cancel {a x y : String} (h : a ++ x = a ++ y) : x = y := by
  have hd : a.data ++ x.data = a.data ++ y.data := by
    rw [← data_append, ← data_append, h]
  have h2 : x.data = y.data := List.append_cancel_left hd
  calc x = String.mk x.data := (mk_data x).symm
    _ = String.mk y.data := by rw [h2]
    _ = y := mk_data y

theorem mkDigit_toNat (n : Nat) : (mkDigit n).toNat = 48 + n % 10 := by
  have h : n % 10 < 10 := Nat.mod_lt _ (by norm_num)
  unfold mkDigit
  generalize n % 10 = k at h ⊢
  interval_cases k <;> decide

theorem isDigit_mkDigit (n : Nat) : isDigitChar (mkDigit n) = true := by
  have h2 : n % 10 < 10 := Nat.mod_lt _ (by norm_num)
  unfold isDigitChar
  rw [mkDigit_toNat]
  simp only [Bool.and_eq_true, decide_eq_true_eq]
  omega

theorem lower_not_apos {c : Char} (h : isLowerAlpha c = true) : (c == apos || c == '-') = false := by
  rcases hb : c == apos with _ | _
  · rcases hb2 : c == '-' with _ | _
    · simp [hb, hb2]
    · have : c = '-' := eq_of_beq hb2
      subst this
      simp [isLowerAlpha] at h
  · have : c = apos := eq_of_beq hb
    subst this
    simp [isLowerAlpha, apos] at h

/- ### Decimal rendering lemmas -/

theorem natDigitsAux_digits : ∀ (fuel n : Nat), digits09 (natDigitsAux fuel n) = true := by
  intro fuel
  induction fuel with
  | zero => intro n; rfl
  | succ f ih =>
    intro n
    unfold natDigitsAux
    split
    · simp [digits09, isDigit_mkDigit]
    · have := ih (n / 10)
      simp only [digits09, List.all_append, List.all_cons, List.all_nil] at this ⊢
      simp [this, isDigit_mkDigit]

theorem natDigitsAux_shape : ∀ (fuel n : Nat), 1 ≤ n → n < 10 ^ fuel →
    ∃ c cs, natDigitsAux fuel n = c :: cs ∧ 49 ≤ c.toNat ∧ c.toNat ≤ 57
      ∧ digits09 cs = true := by
  intro fuel
  induction fuel with
  | zero => intro n h1 h2; simp at h2; omega
  | succ f ih =>
    intro n h1 h2
    unfold natDigitsAux
    split
    · rename_i hlt
      refine ⟨mkDigit n, [], rfl, ?_, ?_, by decide⟩
      · have := mkDigit_toNat n
        have : (mkDigit n).toNat = 48 + n := by
          rw [this, Nat.mod_eq_of_lt hlt]
        omega
      · have := mkDigit_toNat n
        have h10 : n % 10 < 10 := Nat.mod_lt _ (by norm_num)
        omega
    · rename_i hge
      push_neg at hge
      have hd1 : 1 ≤ n / 10 := by omega
      have hd2 : n / 10 < 10 ^ f := by
        have hp : 10 ^ (f + 1) = 10 ^ f * 10 := by ring
        rw [hp] at h2
        omega
      obtain ⟨c, cs, heq, hc1, hc2, hcs⟩ := ih (n / 10) hd1 hd2
      refine ⟨c, cs ++ [mkDigit (n % 10)], by rw [heq]; rfl, hc1, hc2, ?_⟩
      simp only [digits09, List.all_append, List.all_cons, List.all_nil] at hcs ⊢
      simp [hcs, isDigit_mkDigit]

theorem valDigits_natDigitsAux : ∀ (fuel n : Nat), n < 10 ^ fuel →
    valDigits (natDigitsAux fuel n) = n := by
  intro fuel
  induction fuel with
  | zero => intro n h; simp at h; simp [h]; decide
  | succ f ih =>
    intro n h
    unfold natDigitsAux
    split
    · rename_i hlt
      simp only [valDigits, List.foldl_cons, List.foldl_nil]
      rw [mkDigit_toNat]
      omega
    · rename_i hge
      push_neg at hge
      have hd2 : n / 10 < 10 ^ f := by
        have hp : 10 ^ (f + 1) = 10 ^ f * 10 := by ring
        rw [hp] at h
        omega
      have hv := ih (n / 10) hd2
      simp only [valDigits, List.foldl_append, List.foldl_cons, List.foldl_nil] at hv ⊢
      rw [hv, mkDigit_toNat]
      omega

theorem lt_ten_pow (n : Nat) : n < 10 ^ (n + 1) := by
  calc n < 10 ^ n := Nat.lt_pow_self (by norm_num) n
    _ ≤ 10 ^ (n + 1) := Nat.pow_le_pow_right (by norm_num) (Nat.le_succ n)

theorem natRepr_inj {m n : Nat} (h : natRepr m = natRepr n) : m = n := by
  have hm := valDigits_natDigitsAux (m + 1) m (lt_ten_pow m)
  have hn := valDigits_natDigitsAux (n + 1) n (lt_ten_pow n)
  have hdata : natDigitsAux (m + 1) m = natDigitsAux (n + 1) n :=
    congrArg String.data h
  rw [hdata] at hm
  omega

/- ### Suffix search lemmas -/

theorem findSuffix_ge {used : List String} {base : String} :
    ∀ (fuel k0 k : Nat), findSuffix used base fuel k0 = some k → k0 ≤ k := by
  intro fuel
  induction fuel with
  | zero => intro k0 k h; simp [findSuffix] at h
  | succ f ih =>
    intro k0 k h
    unfold findSuffix at h
    split at h
    · have := ih (k0 + 1) k h
      omega
    · have : k0 = k := by injection h
      omega

theorem findSuffix_spec {used : List String} {base : String} :
    ∀ (fuel k0 k : Nat), findSuffix used base fuel k0 = some k →
      base ++ natRepr k ∉ used ∧ ∀ j, k0 ≤ j → j < k → base ++ natRepr j ∈ used := by
  intro fuel
  induction fuel with
  | zero => intro k0 k h; simp [findSuffix] at h
  | succ f ih =>
    intro k0 k h
    unfold findSuffix at h
    split at h
    · rename_i hmem
      obtain ⟨hfree, hless⟩ := ih (k0 + 1) k h
      refine ⟨hfree, ?_⟩
      intro j hj1 hj2
      rcases Nat.eq_or_lt_of_le hj1 with heq | hlt
      · exact heq ▸ hmem
      · exact hless j hlt hj2
    · rename_i hfree
      have hk : k0 = k := by injection h
      subst hk
      exact ⟨hfree, fun j hj1 hj2 => absurd (Nat.lt_of_le_of_lt hj1 hj2) (Nat.lt_irrefl _)⟩

theorem findSuffix_none {used : List String} {base : String} :
    ∀ (fuel k0 : Nat), findSuffix used base fuel k0 = none →
      ∀ j, k0 ≤ j → j < k0 + fuel → base ++ natRepr j ∈ used := by
  intro fuel
  induction fuel with
  | zero => intro k0 _ j hj1 hj2; omega
  | succ f ih =>
    intro k0 h j hj1 hj2
    unfold findSuffix at h
    split at h
    · rename_i hmem
      rcases Nat.eq_or_lt_of_le hj1 with heq | hlt
      · exact heq ▸ hmem
      · exact ih (k0 + 1) h j hlt (by omega)
    · exact absurd h (by simp)

theorem candidates_nodup (base : String) (k0 n : Nat) :
    ((List.range n).map (fun t => base ++ natRepr (k0 + t))).Nodup := by
  refine List.Nodup.map ?_ (List.nodup_range n)
  intro a b h
  have h2 := natRepr_inj (string_append_left_cancel h)
  omega

theorem nodup_subset_length {l₁ l₂ : List String} (hn : l₁.Nodup)
    (hs : ∀ x ∈ l₁, x ∈ l₂) : l₁.length ≤ l₂.length := by
  have h1 : l₁.toFinset.card = l₁.length := List.toFinset_card_of_nodup hn
  have h2 : l₁.toFinset ⊆ l₂.toFinset := by
    intro x hx
    rw [List.mem_toFinset] at hx ⊢
    exact hs x hx
  calc l₁.length = l₁.toFinset.card := h1.symm
    _ ≤ l₂.toFinset.card := Finset.card_le_card h2
    _ ≤ l₂.length := List.toFinset_card_le l₂

theorem findSuffix_total (used : List String) (base : String) :
    ∃ k, findSuffix used base (used.length + 1) 2 = some k := by
  cases h : findSuffix used base (used.length + 1) 2 with
  | some k => exact ⟨k, rfl⟩
  | none =>
    exfalso
    have hall := findSuffix_none (used.length + 1) 2 h
    have hnodup := candidates_nodup base 2 (used.length + 1)
    have hsub : ∀ x ∈ (List.range (used.length + 1)).map
        (fun t => base ++ natRepr (2 + t)), x ∈ used := by
      intro x hx
      simp only [List.mem_map, List.mem_range] at hx
      obtain ⟨t, ht, rfl⟩ := hx
      exact hall (2 + t) (by omega) (by omega)
    have hlen := nodup_subset_length hnodup hsub
    simp only [List.length_map, List.length_range] at hlen
    omega

/-- The full behaviour of the duplicate-username handling: keep an unused base;
for a used base append the least free suffix starting from 2. -/
theorem resolveUsername_spec (used : List String) (base : String) :
    (base ∉ used → resolveUsername used base = base) ∧
    (base ∈ used → ∃ k, 2 ≤ k ∧ base ++ natRepr k ∉ used ∧
      (∀ j, 2 ≤ j → j < k → base ++ natRepr j ∈ used) ∧
      resolveUsername used base = base ++ natRepr k) := by
  constructor
  · intro hmem
    unfold resolveUsername
    simp [hmem]
  · intro hmem
    obtain ⟨k, hk⟩ := findSuffix_total used base
    obtain ⟨hfree, hless⟩ := findSuffix_spec (used.length + 1) 2 k hk
    have hge := findSuffix_ge (used.length + 1) 2 k hk
    refine ⟨k, hge, hfree, hless, ?_⟩
    unfold resolveUsername
    simp only [hmem, if_true, hk]

theorem resolveUsername_not_mem (used : List String) (base : String) :
    resolveUsername used base ∉ used := by
  by_cases hmem : base ∈ used
  · obtain ⟨k, _, hfree, _, heq⟩ := (resolveUsername_spec used base).2 hmem
    rw [heq]
    exact hfree
  · rw [(resolveUsername_spec used base).1 hmem]
    exact hmem

/- ### Word splitting lemmas -/

theorem pyWordsAux_ne_nil : ∀ (cs acc : List Char) (w : List Char),
    w ∈ pyWordsAux acc cs → w ≠ [] := by
  intro cs
  induction cs with
  | nil =>
    intro acc w hw
    unfold pyWordsAux at hw
    split at hw
    · simp at hw
    · rename_i hne
      simp only [List.mem_singleton] at hw
      subst hw
      simp only [Bool.not_eq_true, List.isEmpty_eq_false] at hne
      simpa using hne
  | cons c cs ih =>
    intro acc w hw
    unfold pyWordsAux at hw
    split at hw
    · split at hw
      · exact ih [] w hw
      · rename_i hne
        rcases List.mem_cons.mp hw with heq | hmem
        · subst heq
          simp only [Bool.not_eq_true, List.isEmpty_eq_false] at hne
          simpa using hne
        · exact ih [] w hmem
    · exact ih (c :: acc) w hw

theorem pyWordsAux_chars : ∀ (cs acc : List Char) (w : List Char),
    w ∈ pyWordsAux acc cs → ∀ c ∈ w, c ∈ acc ∨ (c ∈ cs ∧ c.isWhitespace = false) := by
  intro cs
  induction cs with
  | nil =>
    intro acc w hw x hx
    unfold pyWordsAux at hw
    split at hw
    · simp at hw
    · simp only [List.mem_singleton] at hw
      subst hw
      exact Or.inl (List.mem_reverse.mp hx)
  | cons c cs ih =>
    intro acc w hw x hx
    unfold pyWordsAux at hw
    split at hw
    · rename_i hws
      have hrec : w ∈ pyWordsAux [] cs → x ∈ acc ∨ (x ∈ c :: cs ∧ x.isWhitespace = false) := by
        intro hmem
        rcases ih [] w hmem x hx with habs | ⟨hmem2, hns⟩
        · simp at habs
        · exact Or.inr ⟨List.mem_cons_of_mem c hmem2, hns⟩
      split at hw
      · exact hrec hw
      · rcases List.mem_cons.mp hw with heq | hmem
        · subst heq
          exact Or.inl (List.mem_reverse.mp hx)
        · exact hrec hmem
    · rename_i hws
      rcases ih (c :: acc) w hw x hx with hacc | ⟨hmem2, hns⟩
      · rcases List.mem_cons.mp hacc with heq | hmem3
        · subst heq
          refine Or.inr ⟨List.mem_cons_self x cs, ?_⟩
          simpa using hws
        · exact Or.inl hmem3
      · exact Or.inr ⟨List.mem_cons_of_mem c hmem2, hns⟩

theorem pyWords_chars (s : String) (w : List Char) (hw : w ∈ pyWords s) :
    ∀ c ∈ w, c ∈ s.data ∧ c.isWhitespace = false := by
  intro c hc
  rcases pyWordsAux_chars s.data [] w hw c hc with habs | h
  · simp at habs
  · exact h

/- ### generate_username lemmas -/

theorem generate_username_total (nm : String) (h : pyWords (pyLower nm) ≠ []) :
    ∃ u, generate_username nm = some u := by
  cases hw : pyWords (pyLower nm) with
  | nil => exact absurd hw h
  | cons p0 rest =>
    have hp0mem : p0 ∈ pyWords (pyLower nm) := by
      rw [hw]; exact List.mem_cons_self p0 rest
    have hp0 : p0 ≠ [] := pyWordsAux_ne_nil _ _ p0 hp0mem
    cases p0 with
    | nil => exact absurd rfl hp0
    | cons c t =>
      refine ⟨String.mk (stripSpecial
        (if rest.isEmpty then c :: t else c :: rest.getLastD (c :: t))), ?_⟩
      unfold generate_username
      rw [hw]

theorem generate_username_lower (nm : String)
    (hchar : ∀ c ∈ (pyLower nm).data,
      isLowerAlpha c = true ∨ c = apos ∨ c = '-' ∨ c.isWhitespace = true)
    (hlast : lastWordHasLetter nm = true) :
    ∃ u, generate_username nm = some u ∧ matchesLower u = true := by
  unfold lastWordHasLetter at hlast
  cases hw : pyWords (pyLower nm) with
  | nil => rw [hw] at hlast; simp at hlast
  | cons p0 rest =>
    rw [hw] at hlast
    have hp0mem : p0 ∈ pyWords (pyLower nm) := by
      rw [hw]; exact List.mem_cons_self p0 rest
    have hp0 : p0 ≠ [] := pyWordsAux_ne_nil _ _ p0 hp0mem
    have hWordChar : ∀ w, w ∈ pyWords (pyLower nm) → ∀ x ∈ w,
        isLowerAlpha x = true ∨ x = apos ∨ x = '-' := by
      intro w hwmem x hx
      have h2 := pyWords_chars (pyLower nm) w hwmem x hx
      rcases hchar x h2.1 with h | h | h | h
      · exact Or.inl h
      · exact Or.inr (Or.inl h)
      · exact Or.inr (Or.inr h)
      · rw [h2.2] at h; exact absurd h (by simp)
    have hlwmem : rest.getLastD p0 ∈ pyWords (pyLower nm) := by
      rw [hw]; exact List.getLastD_mem_cons rest p0
    rw [List.any_eq_true] at hlast
    obtain ⟨y, hy_mem, hy_low⟩ := hlast
    cases p0 with
    | nil => exact absurd rfl hp0
    | cons c t =>
      refine ⟨String.mk (stripSpecial
        (if rest.isEmpty then c :: t else c :: rest.getLastD (c :: t))), ?_, ?_⟩
      · unfold generate_username
        rw [hw]
      · have hraw_words : ∀ x, x ∈ (if rest.isEmpty then c :: t
            else c :: rest.getLastD (c :: t)) → ∃ w ∈ pyWords (pyLower nm), x ∈ w := by
          intro x hx
          by_cases hre : rest.isEmpty
          · rw [if_pos hre] at hx
            exact ⟨c :: t, hp0mem, hx⟩
          · rw [if_neg hre] at hx
            rcases List.mem_cons.mp hx with heq | hmem
            · exact ⟨c :: t, hp0mem, heq ▸ List.mem_cons_self c t⟩
            · exact ⟨rest.getLastD (c :: t), hlwmem, hmem⟩
        have hy_raw : y ∈ (if rest.isEmpty then c :: t else c :: rest.getLastD (c :: t)) := by
          by_cases hre : rest.isEmpty
          · rw [if_pos hre]
            have : rest = [] := by simpa using hre
            rw [this] at hy_mem
            exact hy_mem
          · rw [if_neg hre]
            exact List.mem_cons_of_mem c hy_mem
        have hy_strip : y ∈ stripSpecial
            (if rest.isEmpty then c :: t else c :: rest.getLastD (c :: t)) := by
          apply List.mem_filter.mpr
          refine ⟨hy_raw, ?_⟩
          rw [lower_not_apos hy_low]
          rfl
        have hall : ∀ x ∈ stripSpecial
            (if rest.isEmpty then c :: t else c :: rest.getLastD (c :: t)),
            isLowerAlpha x = true := by
          intro x hx
          have hx2 := List.mem_filter.mp hx
          obtain ⟨w, hwmem, hxw⟩ := hraw_words x hx2.1
          rcases hWordChar w hwmem x hxw with h | h | h
          · exact h
          · rw [h] at hx2
            simp [apos] at hx2
          · rw [h] at hx2
            simp at hx2
        unfold matchesLower
        rw [Bool.and_eq_true]
        constructor
        · simp only [Bool.not_eq_true']
          rw [List.isEmpty_eq_false]
          exact List.ne_nil_of_mem hy_strip
        · rw [List.all_eq_true]
          exact hall

/- ### Sampling lemmas -/

theorem getD_mem_of_pos {l : List String} (r : Nat) (h : 0 < l.length) :
    l.getD (r % l.length) "" ∈ l := by
  have hidx : r % l.length < l.length := Nat.mod_lt _ h
  rw [List.getD_eq_getElem l "" hidx]
  exact List.getElem_mem hidx

theorem sampleAux_subset : ∀ (k : Nat) (l : List String) (rs : List Nat),
    ∀ x ∈ sampleAux l k rs, x ∈ l := by
  intro k
  induction k with
  | zero => intro l rs x hx; simp [sampleAux] at hx
  | succ k ih =>
    intro l rs x hx
    cases rs with
    | nil => simp [sampleAux] at hx
    | cons r rs =>
      cases l with
      | nil => simp [sampleAux] at hx
      | cons a l =>
        simp only [sampleAux] at hx
        rcases List.mem_cons.mp hx with heq | hmem
        · rw [heq]
          exact getD_mem_of_pos r (by simp)
        · exact List.erase_subset _ _ (ih _ rs x hmem)

theorem sampleAux_nodup : ∀ (k : Nat) (l : List String) (rs : List Nat),
    l.Nodup → (sampleAux l k rs).Nodup := by
  intro k
  induction k with
  | zero => intro l rs _; simp [sampleAux]
  | succ k ih =>
    intro l rs hnd
    cases rs with
    | nil => simp [sampleAux]
    | cons r rs =>
      cases l with
      | nil => simp [sampleAux]
      | cons a l =>
        simp only [sampleAux]
        refine List.Nodup.cons ?_ (ih _ rs (List.Nodup.erase _ hnd))
        intro hmem
        have hsub := sampleAux_subset k _ rs _ hmem
        have := (List.Nodup.mem_erase_iff hnd).mp hsub
        exact this.1 rfl

theorem sampleAux_length : ∀ (k : Nat) (l : List String) (rs : List Nat),
    k ≤ l.length → k ≤ rs.length → (sampleAux l k rs).length = k := by
  intro k
  induction k with
  | zero => intro l rs _ _; simp [sampleAux]
  | succ k ih =>
    intro l rs hk hr
    cases rs with
    | nil => simp at hr
    | cons r rs =>
      cases l with
      | nil => simp at hk
      | cons a l =>
        have hstep : sampleAux (a :: l) (k + 1) (r :: rs)
            = ((a :: l).getD (r % (a :: l).length) "")
              :: sampleAux ((a :: l).erase ((a :: l).getD (r % (a :: l).length) "")) k rs := rfl
        have hxmem : (a :: l).getD (r % (a :: l).length) "" ∈ a :: l :=
          getD_mem_of_pos r (by simp)
        have herase := List.length_erase_of_mem hxmem
        rw [hstep, List.length_cons, ih _ rs ?_ ?_]
        · rw [herase]
          simp only [List.length_cons] at hk ⊢
          omega
        · simpa using hr

/- ### Join and split lemmas -/

theorem splitSemiChars_cons (c : Char) (cs : List Char) :
    splitSemiChars (c :: cs) = if c == ';' then [] :: splitSemiChars cs
      else match splitSemiChars cs with
        | [] => [[c]]
        | t :: ts => (c :: t) :: ts := rfl

theorem splitSemiChars_no_semi : ∀ (cs : List Char),
    (∀ c ∈ cs, (c == ';') = false) → splitSemiChars cs = [cs] := by
  intro cs
  induction cs with
  | nil => intro _; rfl
  | cons c cs ih =>
    intro h
    rw [splitSemiChars_cons, h c (List.mem_cons_self c cs)]
    rw [ih (fun x hx => h x (List.mem_cons_of_mem c hx))]
    simp

theorem splitSemiChars_append : ∀ (cs ds : List Char),
    (∀ c ∈ cs, (c == ';') = false) →
    splitSemiChars (cs ++ ';' :: ds) = cs :: splitSemiChars ds := by
  intro cs
  induction cs with
  | nil =>
    intro ds _
    simp only [List.nil_append]
    rw [splitSemiChars_cons]
    simp
  | cons c cs ih =>
    intro ds h
    simp only [List.cons_append]
    rw [splitSemiChars_cons, h c (List.mem_cons_self c cs)]
    rw [ih ds (fun x hx => h x (List.mem_cons_of_mem c hx))]
    simp

theorem noSemi_chars {t : String} (h : noSemi t = true) :
    ∀ c ∈ t.data, (c == ';') = false := by
  intro c hc
  unfold noSemi at h
  rw [List.all_eq_true] at h
  have := h c hc
  simpa using this

theorem splitSemi_joinSemi : ∀ (l : List String), l ≠ [] →
    (∀ t ∈ l, noSemi t = true) → splitSemi (joinSemi l) = l := by
  intro l
  induction l with
  | nil => intro h _; exact absurd rfl h
  | cons s rest ih =>
    intro _ hsemi
    cases rest with
    | nil =>
      simp only [joinSemi, splitSemi]
      rw [splitSemiChars_no_semi s.data (noSemi_chars (hsemi s (List.mem_cons_self s [])))]
      simp [mk_data]
    | cons s2 rest2 =>
      have hjoin : joinSemi (s :: s2 :: rest2) = s ++ ";" ++ joinSemi (s2 :: rest2) := rfl
      rw [hjoin]
      unfold splitSemi
      have hdata : (s ++ ";" ++ joinSemi (s2 :: rest2)).data
          = s.data ++ ';' :: (joinSemi (s2 :: rest2)).data := by
        rw [data_append, data_append]
        simp
      rw [hdata]
      rw [splitSemiChars_append s.data _ (noSemi_chars (hsemi s (List.mem_cons_self s _)))]
      simp only [List.map_cons, mk_data]
      have hrec := ih (by simp) (fun t ht => hsemi t (List.mem_cons_of_mem s ht))
      unfold splitSemi at hrec
      rw [hrec]

/- ### Sorting lemmas -/

theorem lexLeChars_total : ∀ (as bs : List Char),
    lexLeChars as bs = true ∨ lexLeChars bs as = true := by
  intro as
  induction as with
  | nil => intro bs; exact Or.inl rfl
  | cons a as ih =>
    intro bs
    cases bs with
    | nil => exact Or.inr rfl
    | cons b bs =>
      unfold lexLeChars
      by_cases heq : a.toNat = b.toNat
      · rw [if_pos heq, if_pos heq.symm]
        exact ih bs
      · rw [if_neg heq, if_neg (fun h => heq h.symm)]
        simp only [decide_eq_true_eq]
        omega

theorem lexLeChars_trans : ∀ (as bs cs : List Char), lexLeChars as bs = true →
    lexLeChars bs cs = true → lexLeChars as cs = true := by
  intro as
  induction as with
  | nil => intro bs cs _ _; rfl
  | cons a as ih =>
    intro bs cs h1 h2
    cases bs with
    | nil => simp [lexLeChars] at h1
    | cons b bs =>
      cases cs with
      | nil => simp [lexLeChars] at h2
      | cons c cs =>
        unfold lexLeChars at h1 h2 ⊢
        by_cases hab : a.toNat = b.toNat
        · rw [if_pos hab] at h1
          by_cases hbc : b.toNat = c.toNat
          · rw [if_pos hbc] at h2
            rw [if_pos (hab.trans hbc)]
            exact ih bs cs h1 h2
          · rw [if_neg hbc] at h2
            simp only [decide_eq_true_eq] at h2
            rw [if_neg (by omega)]
            simp only [decide_eq_true_eq]
            omega
        · rw [if_neg hab] at h1
          simp only [decide_eq_true_eq] at h1
          by_cases hbc : b.toNat = c.toNat
          · rw [if_neg (by omega)]
            simp only [decide_eq_true_eq]
            omega
          · rw [if_neg hbc] at h2
            simp only [decide_eq_true_eq] at h2
            rw [if_neg (by omega)]
            simp only [decide_eq_true_eq]
            omega

instance : IsTotal String (fun a b : String => lexLe a b = true) :=
  ⟨fun a b => lexLeChars_total a.data b.data⟩

instance : IsTrans String (fun a b : String => lexLe a b = true) :=
  ⟨fun a b c h1 h2 => lexLeChars_trans a.data b.data c.data h1 h2⟩

theorem sortStrings_perm (l : List String) : (sortStrings l).Perm l :=
  List.perm_insertionSort _ l

theorem sortStrings_sorted (l : List String) :
    (sortStrings l).Sorted (fun a b : String => lexLe a b = true) :=
  List.sorted_insertionSort _ l

/- ### select_groups specification -/

theorem select_groups_spec (dept : String) (gs : List String)
    (hlook : List.lookup dept GROUPS = some gs)
    (hnd : gs.Nodup) (hlen : 2 ≤ gs.length) (hsemi : ∀ t ∈ gs, noSemi t = true) :
    ∀ r1 r2 r3, ∃ g, select_groups dept r1 r2 r3 = some g ∧
      ((splitSemi g).length = 1 ∨ (splitSemi g).length = 2) ∧
      (∀ t ∈ splitSemi g, t ∈ gs) ∧
      (splitSemi g).Nodup ∧
      (splitSemi g).Sorted (fun a b : String => lexLe a b = true) := by
  intro r1 r2 r3
  have hmin : min 2 gs.length = 2 := Nat.min_eq_left hlen
  have hnum12 : randint 1 (min 2 gs.length) r1 = 1 ∨ randint 1 (min 2 gs.length) r1 = 2 := by
    rw [hmin]
    unfold randint
    have : r1 % 2 < 2 := Nat.mod_lt _ (by norm_num)
    omega
  have hsub : ∀ x ∈ sampleAux gs (randint 1 (min 2 gs.length) r1) [r2, r3], x ∈ gs :=
    sampleAux_subset _ gs [r2, r3]
  have hndsel : (sampleAux gs (randint 1 (min 2 gs.length) r1) [r2, r3]).Nodup :=
    sampleAux_nodup _ gs [r2, r3] hnd
  have hlensel : (sampleAux gs (randint 1 (min 2 gs.length) r1) [r2, r3]).length
      = randint 1 (min 2 gs.length) r1 :=
    sampleAux_length _ gs [r2, r3] (by omega) (by simp; omega)
  have hperm := sortStrings_perm (sampleAux gs (randint 1 (min 2 gs.length) r1) [r2, r3])
  have hsplit : splitSemi (joinSemi (sortStrings
      (sampleAux gs (randint 1 (min 2 gs.length) r1) [r2, r3])))
      = sortStrings (sampleAux gs (randint 1 (min 2 gs.length) r1) [r2, r3]) := by
    apply splitSemi_joinSemi
    · have hl : (sortStrings (sampleAux gs (randint 1 (min 2 gs.length) r1) [r2, r3])).length
          = randint 1 (min 2 gs.length) r1 := by
        rw [hperm.length_eq, hlensel]
      intro hemp
      rw [hemp] at hl
      simp at hl
      omega
    · intro t ht
      exact hsemi t (hsub t (hperm.mem_iff.mp ht))
  refine ⟨joinSemi (sortStrings (sampleAux gs (randint 1 (min 2 gs.length) r1) [r2, r3])),
    ?_, ?_, ?_, ?_, ?_⟩
  · unfold select_groups
    rw [hlook]
  · rw [hsplit, hperm.length_eq, hlensel]
    exact hnum12
  · rw [hsplit]
    intro t ht
    exact hsub t (hperm.mem_iff.mp ht)
  · rw [hsplit]
    exact hperm.nodup_iff.mpr hndsel
  · rw [hsplit]
    exact sortStrings_sorted _

theorem groups_good : ∀ d ∈ DEPARTMENTS, ∃ gs, List.lookup d GROUPS = some gs ∧
    gs.Nodup ∧ 2 ≤ gs.length ∧ ∀ t ∈ gs, noSemi t = true := by
  intro d hd
  simp only [DEPARTMENTS] at hd
  fin_cases hd <;> exact ⟨_, rfl, by decide, by decide, by decide⟩

theorem select_groups_isSome : ∀ d ∈ DEPARTMENTS, ∀ (r1 r2 r3 : Nat),
    (select_groups d r1 r2 r3).isSome = true := by
  intro d hd r1 r2 r3
  obtain ⟨gs, hlook, hnd, hlen, hsemi⟩ := groups_good d hd
  obtain ⟨g, hg, _⟩ := select_groups_spec d gs hlook hnd hlen hsemi r1 r2 r3
  rw [hg]
  rfl

/- ### Date lemmas -/

theorem date_between_bounds (lo hi r : Nat) (h : lo ≤ hi) :
    lo ≤ date_between lo hi r ∧ date_between lo hi r ≤ hi := by
  unfold date_between
  have : r % (hi - lo + 1) < hi - lo + 1 := Nat.mod_lt _ (by omega)
  omega

theorem isoYmd_iso (y m d : Nat) : isIsoDate (isoYmd y m d) = true := by
  unfold isoYmd isIsoDate pad4 pad2
  simp [isDigit_mkDigit]

theorem isoOfDay_iso (z : Nat) : isIsoDate (isoOfDay z) = true := by
  unfold isoOfDay
  exact isoYmd_iso _ _ _

/- ### Variant-B run lemmas -/

theorem dept_mem (r : Nat) :
    DEPARTMENTS.getD (r % DEPARTMENTS.length) "" ∈ DEPARTMENTS :=
  getD_mem_of_pos r (by simp [DEPARTMENTS])

theorem generate_users_rows_length : ∀ (n : Nat) (s : BStreams) (lo hi i ppos : Nat)
    (used : List String) (rows : List Row),
    generate_users_rows s lo hi n i ppos used = some rows → rows.length = n := by
  intro n
  induction n with
  | zero =>
    intro s lo hi i ppos used rows h
    simp only [generate_users_rows, Option.some_inj] at h
    rw [← h]
    rfl
  | succ n ih =>
    intro s lo hi i ppos used rows h
    simp only [generate_users_rows] at h
    cases hbase : generate_username (s.fakeNames i) with
    | none =>
      simp only [hbase] at h
      exact absurd h (by simp)
    | some base =>
      simp only [hbase] at h
      cases hsel : select_groups (DEPARTMENTS.getD (s.pyR ppos % DEPARTMENTS.length) "")
          (s.pyR (ppos + 1)) (s.pyR (ppos + 2)) (s.pyR (ppos + 3)) with
      | none =>
        simp only [hsel] at h
        exact absurd h (by simp)
      | some g =>
        simp only [hsel] at h
        cases hrec : generate_users_rows s lo hi n (i + 1)
            (ppos + 3 + s.pyR (ppos + 1) % 2) (resolveUsername used base :: used) with
        | none =>
          simp only [hrec] at h
          exact absurd h (by simp)
        | some rest =>
          simp only [hrec, Option.some_inj] at h
          rw [← h]
          simp only [List.length_cons]
          rw [ih _ _ _ _ _ _ _ hrec]

theorem generate_users_rows_total : ∀ (n : Nat) (s : BStreams) (lo hi i ppos : Nat)
    (used : List String), (∀ j, pyWords (pyLower (s.fakeNames j)) ≠ []) →
    ∃ rows, generate_users_rows s lo hi n i ppos used = some rows := by
  intro n
  induction n with
  | zero =>
    intro s lo hi i ppos used _
    exact ⟨[], rfl⟩
  | succ n ih =>
    intro s lo hi i ppos used hnames
    obtain ⟨base, hbase⟩ := generate_username_total (s.fakeNames i) (hnames i)
    have hsome := select_groups_isSome _ (dept_mem (s.pyR ppos))
      (s.pyR (ppos + 1)) (s.pyR (ppos + 2)) (s.pyR (ppos + 3))
    obtain ⟨g, hsel⟩ := Option.isSome_iff_exists.mp hsome
    obtain ⟨rest, hrec⟩ := ih s lo hi (i + 1)
      (ppos + 3 + s.pyR (ppos + 1) % 2) (resolveUsername used base :: used) hnames
    refine ⟨⟨resolveUsername used base, s.fakeNames i,
      generate_email (resolveUsername used base),
      DEPARTMENTS.getD (s.pyR ppos % DEPARTMENTS.length) "", g,
      date_between lo hi (s.fakeDateR i)⟩ :: rest, ?_⟩
    simp only [generate_users_rows, hbase, hsel, hrec]

theorem generate_users_rows_usernames : ∀ (n : Nat) (s : BStreams) (lo hi i ppos : Nat)
    (used : List String) (rows : List Row),
    generate_users_rows s lo hi n i ppos used = some rows →
    (∀ u ∈ rows.map Row.username, u ∉ used) ∧ (rows.map Row.username).Nodup := by
  intro n
  induction n with
  | zero =>
    intro s lo hi i ppos used rows h
    simp only [generate_users_rows, Option.some_inj] at h
    rw [← h]
    exact ⟨by simp, by simp⟩
  | succ n ih =>
    intro s lo hi i ppos used rows h
    simp only [generate_users_rows] at h
    cases hbase : generate_username (s.fakeNames i) with
    | none =>
      simp only [hbase] at h
      exact absurd h (by simp)
    | some base =>
      simp only [hbase] at h
      cases hsel : select_groups (DEPARTMENTS.getD (s.pyR ppos % DEPARTMENTS.length) "")
          (s.pyR (ppos + 1)) (s.pyR (ppos + 2)) (s.pyR (ppos + 3)) with
      | none =>
        simp only [hsel] at h
        exact absurd h (by simp)
      | some g =>
        simp only [hsel] at h
        cases hrec : generate_users_rows s lo hi n (i + 1)
            (ppos + 3 + s.pyR (ppos + 1) % 2) (resolveUsername used base :: used) with
        | none =>
          simp only [hrec] at h
          exact absurd h (by simp)
        | some rest =>
          simp only [hrec, Option.some_inj] at h
          obtain ⟨hnotin, hnd⟩ := ih _ _ _ _ _ _ _ hrec
          rw [← h]
          simp only [List.map_cons]
          constructor
          · intro u hu
            rcases List.mem_cons.mp hu with heq | hmem
            · rw [heq]
              exact resolveUsername_not_mem used base
            · intro huse
              exact hnotin u hmem (List.mem_cons_of_mem _ huse)
          · refine List.Nodup.cons ?_ hnd
            intro hmem
            exact hnotin _ hmem (List.mem_cons_self _ _)

theorem generate_users_rows_expiry : ∀ (n : Nat) (s : BStreams) (lo hi i ppos : Nat)
    (used : List String) (rows : List Row), lo ≤ hi →
    generate_users_rows s lo hi n i ppos used = some rows →
    ∀ row ∈ rows, lo ≤ row.expiry ∧ row.expiry ≤ hi
      ∧ isIsoDate (isoOfDay row.expiry) = true := by
  intro n
  induction n with
  | zero =>
    intro s lo hi i ppos used rows _ h
    simp only [generate_users_rows, Option.some_inj] at h
    rw [← h]
    simp
  | succ n ih =>
    intro s lo hi i ppos used rows hlohi h
    simp only [generate_users_rows] at h
    cases hbase : generate_username (s.fakeNames i) with
    | none =>
      simp only [hbase] at h
      exact absurd h (by simp)
    | some base =>
      simp only [hbase] at h
      cases hsel : select_groups (DEPARTMENTS.getD (s.pyR ppos % DEPARTMENTS.length) "")
          (s.pyR (ppos + 1)) (s.pyR (ppos + 2)) (s.pyR (ppos + 3)) with
      | none =>
        simp only [hsel] at h
        exact absurd h (by simp)
      | some g =>
        simp only [hsel] at h
        cases hrec : generate_users_rows s lo hi n (i + 1)
            (ppos + 3 + s.pyR (ppos + 1) % 2) (resolveUsername used base :: used) with
        | none =>
          simp only [hrec] at h
          exact absurd h (by simp)
        | some rest =>
          simp only [hrec, Option.some_inj] at h
          rw [← h]
          intro row hrow
          rcases List.mem_cons.mp hrow with heq | hmem
          · rw [heq]
            obtain ⟨h1, h2⟩ := date_between_bounds lo hi (s.fakeDateR i) hlohi
            exact ⟨h1, h2, isoOfDay_iso _⟩
          · exact ih _ _ _ _ _ _ _ hlohi hrec row hmem

theorem rows_fakerView_eq : ∀ (n : Nat) (fn : Nat → String) (fd : Nat → Nat)
    (p q : Nat → Nat) (lo hi i pp pq : Nat) (used : List String),
    Option.map (List.map fakerView) (generate_users_rows ⟨fn, fd, p⟩ lo hi n i pp used)
      = Option.map (List.map fakerView) (generate_users_rows ⟨fn, fd, q⟩ lo hi n i pq used) := by
  intro n
  induction n with
  | zero => intro fn fd p q lo hi i pp pq used; rfl
  | succ n ih =>
    intro fn fd p q lo hi i pp pq used
    simp only [generate_users_rows]
    cases hbase : generate_username (fn i) with
    | none => simp only [hbase, Option.map_none']
    | some base =>
      simp only [hbase]
      obtain ⟨gp, hgp⟩ := Option.isSome_iff_exists.mp
        (select_groups_isSome _ (dept_mem (p pp)) (p (pp + 1)) (p (pp + 2)) (p (pp + 3)))
      obtain ⟨gq, hgq⟩ := Option.isSome_iff_exists.mp
        (select_groups_isSome _ (dept_mem (q pq)) (q (pq + 1)) (q (pq + 2)) (q (pq + 3)))
      simp only [hgp, hgq]
      have hIH := ih fn fd p q lo hi (i + 1) (pp + 3 + p (pp + 1) % 2)
        (pq + 3 + q (pq + 1) % 2) (resolveUsername used base :: used)
      cases hrecp : generate_users_rows ⟨fn, fd, p⟩ lo hi n (i + 1)
          (pp + 3 + p (pp + 1) % 2) (resolveUsername used base :: used) with
      | none =>
        cases hrecq : generate_users_rows ⟨fn, fd, q⟩ lo hi n (i + 1)
            (pq + 3 + q (pq + 1) % 2) (resolveUsername used base :: used) with
        | none => simp only [hrecp, hrecq, Option.map_none']
        | some rq =>
          rw [hrecp, hrecq] at hIH
          simp at hIH
      | some rp =>
        cases hrecq : generate_users_rows ⟨fn, fd, q⟩ lo hi n (i + 1)
            (pq + 3 + q (pq + 1) % 2) (resolveUsername used base :: used) with
        | none =>
          rw [hrecp, hrecq] at hIH
          simp at hIH
        | some rq =>
          rw [hrecp, hrecq] at hIH
          simp only [Option.map_some', Option.some_inj] at hIH
          simp only [hrecp, hrecq, Option.map_some', Option.some_inj, List.map_cons]
          rw [hIH]
          rfl

/- ### Variant-A run lemmas -/

theorem generate_users_A_start : ∀ (n : Nat) (s : AStreams) (lo hi i ppos : Nat)
    (recs : List ARecord), lo ≤ hi →
    generate_users_A s lo hi n i ppos = some recs →
    ∀ rec ∈ recs, lo ≤ rec.start_date ∧ rec.start_date ≤ hi := by
  intro n
  induction n with
  | zero =>
    intro s lo hi i ppos recs _ h
    simp only [generate_users_A, Option.some_inj] at h
    rw [← h]
    simp
  | succ n ih =>
    intro s lo hi i ppos recs hlohi h
    simp only [generate_users_A] at h
    cases huser : generate_user_A s lo hi i ppos with
    | none =>
      simp only [huser] at h
      exact absurd h (by simp)
    | some u =>
      simp only [huser] at h
      cases hrec : generate_users_A s lo hi n (i + 1) (ppos + 3) with
      | none =>
        simp only [hrec] at h
        exact absurd h (by simp)
      | some rest =>
        simp only [hrec, Option.some_inj] at h
        rw [← h]
        intro rec hmem
        rcases List.mem_cons.mp hmem with heq | hmem2
        · have hstart : u.start_date = date_between lo hi (s.dateR i) := by
            unfold generate_user_A at huser
            cases hun : generate_username_A (s.firstNames i) (s.lastNames i) (s.pyR ppos) with
            | none =>
              simp only [hun] at huser
              exact absurd huser (by simp)
            | some un =>
              simp only [hun, Option.some_inj] at huser
              rw [← huser]
          rw [heq, hstart]
          exact date_between_bounds lo hi (s.dateR i) hlohi
        · exact ih _ _ _ _ _ _ hlohi hrec rec hmem2

/- ### Pattern lemmas for the disambiguated-username shape -/

theorem disambigAux_cons (lowD : Nat) (c : Char) (cs : List Char) :
    disambigAux lowD (c :: cs) = if isLowerAlpha c then disambigAux lowD cs
      else if lowD ≤ c.toNat && c.toNat ≤ 57 then digits09 cs else false := rfl

theorem disambigAux_lower_append : ∀ (cs : List Char) (d0 : Char) (ds : List Char),
    (∀ x ∈ cs, isLowerAlpha x = true) → 49 ≤ d0.toNat → d0.toNat ≤ 57 →
    digits09 ds = true → disambigAux 49 (cs ++ d0 :: ds) = true := by
  intro cs
  induction cs with
  | nil =>
    intro d0 ds _ h1 h2 h3
    simp only [List.nil_append]
    rw [disambigAux_cons]
    have hnl : isLowerAlpha d0 = false := by
      unfold isLowerAlpha
      simp only [Bool.and_eq_false_iff, decide_eq_false_iff_not]
      omega
    rw [hnl]
    simp only [if_false, Bool.false_eq_true]
    have hcond : (49 ≤ d0.toNat && d0.toNat ≤ 57) = true := by
      simp only [Bool.and_eq_true, decide_eq_true_eq]
      omega
    rw [hcond]
    simp [h3]
  | cons c cs ih =>
    intro d0 ds h h1 h2 h3
    simp only [List.cons_append]
    rw [disambigAux_cons, h c (List.mem_cons_self c cs)]
    simp only [if_true]
    exact ih d0 ds (fun x hx => h x (List.mem_cons_of_mem c hx)) h1 h2 h3

theorem matchesDisambig19_append {b : String} {k : Nat} (hlow : matchesLower b = true)
    (hk : 1 ≤ k) : matchesDisambig19 (b ++ natRepr k) = true := by
  have h1 := hlow
  unfold matchesLower at h1
  rw [Bool.and_eq_true] at h1
  obtain ⟨hne, hall⟩ := h1
  rw [List.all_eq_true] at hall
  obtain ⟨d0, ds, hrepr, h49, h57, hds⟩ := natDigitsAux_shape (k + 1) k hk (lt_ten_pow k)
  cases hdata : b.data with
  | nil => rw [hdata] at hne; simp at hne
  | cons c cs =>
    have hd : (natRepr k).data = d0 :: ds := by
      unfold natRepr
      rw [hrepr]
    have hfull : (b ++ natRepr k).data = c :: (cs ++ d0 :: ds) := by
      rw [data_append, hdata, hd]
      rfl
    unfold matchesDisambig19
    rw [hfull]
    show (isLowerAlpha c && disambigAux 49 (cs ++ d0 :: ds)) = true
    have hc : isLowerAlpha c = true := hall c (by rw [hdata]; exact List.mem_cons_self c cs)
    rw [hc]
    simp only [Bool.true_and]
    exact disambigAux_lower_append cs d0 ds
      (fun x hx => hall x (by rw [hdata]; exact List.mem_cons_of_mem c hx)) h49 h57 hds

/- ### Claim theorems -/

/-- Claim C1, counterexample: two variant-B runs share the seeded Faker streams
(identical fakeNames and fakeDateR) yet produce different CSV file content for
count 1, because the script never seeds the random module that picks the
department and the groups. -/
theorem C1_counterexample :
    (bDemo1.fakeNames = bDemo2.fakeNames ∧ bDemo1.fakeDateR = bDemo2.fakeDateR) ∧
    generate_users_file bDemo1 20700 21200 1 ≠ generate_users_file bDemo2 20700 21200 1 :=
  ⟨⟨rfl, rfl⟩, by decide⟩

/-- Claim C1, amended: with the Faker source fixed (seeded), two variant-B runs
with the same count and date anchors agree on the Faker-derived columns
username, fullname, email and account expiry, whatever the unseeded random
module draws; the department and groups columns are not covered. -/
theorem C1_amended : ∀ (fn : Nat → String) (fd p q : Nat → Nat) (lo hi : Nat)
    (count : Int),
    Option.map (List.map fakerView) (generate_users_rows ⟨fn, fd, p⟩ lo hi count.toNat 0 0 [])
      = Option.map (List.map fakerView) (generate_users_rows ⟨fn, fd, q⟩ lo hi count.toNat 0 0 []) :=
  fun fn fd p q lo hi count => rows_fakerView_eq count.toNat fn fd p q lo hi 0 0 0 []

/-- Claim C2, counterexample: a variant-A run of two records whose Faker stream
repeats the name John Smith produces the username johnsmith twice; variant A has
no duplicate handling, so the claim fails for it. -/
theorem C2_counterexample :
    Option.map (List.map ARecord.username) (generate_users_A aDemo 0 0 2 0 0)
      = some ["johnsmith", "johnsmith"] ∧
    ¬ (["johnsmith", "johnsmith"] : List String).Nodup :=
  ⟨by decide, by decide⟩

/-- Claim C2, amended: in variant B every generation run yields pairwise
distinct usernames (the incrementing-suffix loop repairs collisions); variant A
enforces no uniqueness. -/
theorem C2_amended : ∀ (s : BStreams) (lo hi n : Nat) (rows : List Row),
    generate_users_rows s lo hi n 0 0 [] = some rows →
    (rows.map Row.username).Nodup :=
  fun s lo hi n rows h => (generate_users_rows_usernames n s lo hi 0 0 [] rows h).2

/-- Witness for C2: a concrete three-record variant-B run with a colliding name
stream has pairwise distinct usernames. -/
theorem C2_witness :
    generate_users_rows bDemo1 20700 21200 3 0 0 [] = some bDemoRows ∧
    (bDemoRows.map Row.username).Nodup := by
  have h : generate_users_rows bDemo1 20700 21200 3 0 0 [] = some bDemoRows := by decide
  exact ⟨h, C2_amended bDemo1 20700 21200 3 bDemoRows h⟩

/-- Claim C3, counterexample: a negative count is not rejected; the run opens the
file, writes the header line and finishes without any error, so I/O does happen
and no invalid-argument error is raised. -/
theorem C3_counterexample :
    generate_users_file bDemo1 20700 21200 (-1) = some [headerB]
      ∧ [headerB] ≠ ([] : List String) :=
  ⟨by decide, by decide⟩

/-- Claim C3, amended: a negative count is treated like count zero: the while
loop runs no iteration and the run completes normally with a header-only file
(the file is created and the header written, with no error of any kind). -/
theorem C3_amended : ∀ (s : BStreams) (lo hi : Nat) (count : Int), count < 0 →
    generate_users_file s lo hi count = some [headerB] := by
  intro s lo hi count h
  have ht : count.toNat = 0 := Int.toNat_eq_zero.mpr (le_of_lt h)
  unfold generate_users_file
  rw [ht]
  rfl

/-- Witness for C3: the run with count minus seven produces the header-only file. -/
theorem C3_witness : generate_users_file bDemo1 0 0 (-7) = some [headerB] :=
  C3_amended bDemo1 0 0 (-7) (by decide)

/-- Claim C4: for every count at least zero, a variant-B run writes exactly
count plus one lines, the header first, one CSV row per record in generation
order, and count zero yields a header-only file.  (The name-stream condition
models that Faker names always hold at least one word.) -/
theorem C4_line_count : ∀ (s : BStreams) (lo hi : Nat) (count : Int), 0 ≤ count →
    (∀ j, pyWords (pyLower (s.fakeNames j)) ≠ []) →
    ∃ lines, generate_users_file s lo hi count = some lines ∧
      lines.length = count.toNat + 1 ∧ lines.head? = some headerB ∧
      (count = 0 → lines = [headerB]) := by
  intro s lo hi count hc hnames
  obtain ⟨rows, hrows⟩ := generate_users_rows_total count.toNat s lo hi 0 0 [] hnames
  have hlen := generate_users_rows_length count.toNat s lo hi 0 0 [] rows hrows
  refine ⟨headerB :: rows.map rowLine, ?_, ?_, rfl, ?_⟩
  · unfold generate_users_file
    rw [hrows]
    rfl
  · simp [hlen]
  · intro h0
    subst h0
    have hnil : rows = [] := List.eq_nil_of_length_eq_zero (by simpa using hlen)
    rw [hnil]
    rfl

/-- Witness for C4: a concrete count-3 run yields a four-line file. -/
theorem C4_witness :
    Option.map List.length (generate_users_file bDemo1 20700 21200 3) = some 4 := by
  obtain ⟨lines, h1, h2, _, _⟩ :=
    C4_line_count bDemo1 20700 21200 3 (by decide)
      (fun j => show pyWords (pyLower "John Smith") ≠ [] by decide)
  rw [h1]
  simp [h2]

/-- Claim C5, counterexample: the Faker-style full name John Smith Jr. yields
the base form jjr. which holds a period and so does not match the lowercase
regular expression; and once suffixes 2 through 9 of a base are taken the next
disambiguated username carries suffix 10, which falls outside the claimed
pattern with first suffix digit 2 to 9. -/
theorem C5_counterexample :
    generate_username "John Smith Jr." = some "jjr." ∧ matchesLower "jjr." = false ∧
    resolveUsername ["jsmith", "jsmith2", "jsmith3", "jsmith4", "jsmith5", "jsmith6",
      "jsmith7", "jsmith8", "jsmith9"] "jsmith" = "jsmith10" ∧
    matchesDisambig29 "jsmith10" = false :=
  ⟨by decide, by decide, by decide, by decide⟩

/-- Claim C5, amended: for full names whose characters (after lowercasing) are
lowercase ASCII letters, apostrophes, hyphens or whitespace, with a letter in
the last word, the base form matches the lowercase-letters pattern; and every
disambiguated username is the base followed by the decimal numeral of a suffix
at least 2, matching lower-alpha-plus then a digit 1 to 9 then digits. -/
theorem C5_amended :
    (∀ nm : String, (∀ c ∈ (pyLower nm).data,
        isLowerAlpha c = true ∨ c = apos ∨ c = '-' ∨ c.isWhitespace = true) →
      lastWordHasLetter nm = true →
      ∃ u, generate_username nm = some u ∧ matchesLower u = true) ∧
    (∀ (used : List String) (base : String), matchesLower base = true →
      resolveUsername used base = base ∨
      ∃ k, 2 ≤ k ∧ resolveUsername used base = base ++ natRepr k ∧
        matchesDisambig19 (base ++ natRepr k) = true) := by
  constructor
  · exact generate_username_lower
  · intro used base hlow
    by_cases hmem : base ∈ used
    · obtain ⟨k, hk2, _, _, heq⟩ := (resolveUsername_spec used base).2 hmem
      exact Or.inr ⟨k, hk2, heq, matchesDisambig19_append hlow (by omega)⟩
    · exact Or.inl ((resolveUsername_spec used base).1 hmem)

/-- Witness for C5: the name Anna Lee gives the all-lowercase base alee. -/
theorem C5_witness : generate_username "Anna Lee" = some "alee"
    ∧ matchesLower "alee" = true := by
  obtain ⟨u, h1, h2⟩ := C5_amended.1 "Anna Lee" (by decide) (by decide)
  have hu : u = "alee" := by
    have h3 : some u = some "alee" := by rw [← h1]; decide
    injection h3
  rw [hu] at h1 h2
  exact ⟨h1, h2⟩

/-- Claim C6: for every used set and base username, the derived username is the
base when unused, otherwise the base with the smallest suffix at least 2 whose
combination is unused appended. -/
theorem C6_username_derivation : ∀ (used : List String) (base : String),
    (base ∉ used → resolveUsername used base = base) ∧
    (base ∈ used → ∃ k, 2 ≤ k ∧ base ++ natRepr k ∉ used ∧
      (∀ j, 2 ≤ j → j < k → base ++ natRepr j ∈ used) ∧
      resolveUsername used base = base ++ natRepr k) :=
  resolveUsername_spec

/-- Witness for C6: an unused base is kept; a used base gets suffix 2. -/
theorem C6_witness : resolveUsername [] "ab" = "ab"
    ∧ resolveUsername ["ab"] "ab" = "ab2" := by
  constructor
  · exact (C6_username_derivation [] "ab").1 (by decide)
  · obtain ⟨k, hk2, hfree, hleast, heq⟩ := (C6_username_derivation ["ab"] "ab").2 (by decide)
    have hk : k = 2 := by
      by_contra hne
      have hmem := hleast 2 (by omega) (by omega)
      exact absurd hmem (by decide)
    rw [hk] at heq
    rw [heq]
    decide

/-- Claim C7: for every department of the vocabulary and all random draws, the
groups field splits into 1 or 2 semicolon-separated tokens, pairwise distinct,
each from that department's fixed vocabulary, in ascending lexicographic order. -/
theorem C7_select_groups_tokens : ∀ d ∈ DEPARTMENTS, ∀ (r1 r2 r3 : Nat),
    ∃ gs g, List.lookup d GROUPS = some gs ∧ select_groups d r1 r2 r3 = some g ∧
      ((splitSemi g).length = 1 ∨ (splitSemi g).length = 2) ∧
      (∀ t ∈ splitSemi g, t ∈ gs) ∧ (splitSemi g).Nodup ∧
      (splitSemi g).Sorted (fun a b : String => lexLe a b = true) := by
  intro d hd r1 r2 r3
  obtain ⟨gs, hlook, hnd, hlen, hsemi⟩ := groups_good d hd
  obtain ⟨g, hg, hprops⟩ := select_groups_spec d gs hlook hnd hlen hsemi r1 r2 r3
  exact ⟨gs, g, hlook, hg, hprops⟩

/-- Witness for C7: concrete draws for the IT department give the sorted
two-token field devops then support, with distinct sorted tokens. -/
theorem C7_witness : select_groups "IT" 1 3 2 = some "devops;support" ∧
    (splitSemi "devops;support").Nodup ∧
    (splitSemi "devops;support").Sorted (fun a b : String => lexLe a b = true) := by
  obtain ⟨gs, g, hlook, hg, hlen12, hmem, hnd, hsort⟩ :=
    C7_select_groups_tokens "IT" (by decide) 1 3 2
  have hgeq : g = "devops;support" := by
    have h3 : some g = some "devops;support" := by rw [← hg]; decide
    injection h3
  subst hgeq
  exact ⟨hg, hnd, hsort⟩

/-- Claim C8: every variant-B expiry day count lies in the inclusive window
given by the anchors (today plus six months, today plus two years) whatever the
draw, and its rendering has the ISO-8601 date shape; every variant-A start date
lies in the window from two years in the past to today. -/
theorem C8_date_windows :
    (∀ (s : BStreams) (lo hi n i ppos : Nat) (used : List String) (rows : List Row),
      lo ≤ hi → generate_users_rows s lo hi n i ppos used = some rows →
      ∀ row ∈ rows, lo ≤ row.expiry ∧ row.expiry ≤ hi
        ∧ isIsoDate (isoOfDay row.expiry) = true) ∧
    (∀ (s : AStreams) (lo hi n i ppos : Nat) (recs : List ARecord),
      lo ≤ hi → generate_users_A s lo hi n i ppos = some recs →
      ∀ rec ∈ recs, lo ≤ rec.start_date ∧ rec.start_date ≤ hi) :=
  ⟨fun s lo hi n i ppos used rows h1 h2 =>
      generate_users_rows_expiry n s lo hi i ppos used rows h1 h2,
   fun s lo hi n i ppos recs h1 h2 =>
      generate_users_A_start n s lo hi i ppos recs h1 h2⟩

/-- Witness for C8: the first row of the concrete run has its expiry inside the
window 20700 to 21200 and an ISO-shaped rendering. -/
theorem C8_witness : 20700 ≤ bRow0.expiry ∧ bRow0.expiry ≤ 21200 ∧
    isIsoDate (isoOfDay bRow0.expiry) = true :=
  C8_date_windows.1 bDemo1 20700 21200 3 0 0 [] bDemoRows (by decide) (by decide)
    bRow0 (by decide)

/-- Claim C9: every department of DEPARTMENTS is a key of GROUPS, so the lookup
inside select_groups never fails and select_groups is total on the vocabulary. -/
theorem C9_groups_total : ∀ d ∈ DEPARTMENTS,
    (List.lookup d GROUPS).isSome = true ∧
    ∀ (r1 r2 r3 : Nat), (select_groups d r1 r2 r3).isSome = true := by
  intro d hd
  refine ⟨?_, select_groups_isSome d hd⟩
  obtain ⟨gs, hlook, _⟩ := groups_good d hd
  rw [hlook]
  rfl

/-- Witness for C9: the IT department has a GROUPS entry and a defined
select_groups result. -/
theorem C9_witness : (List.lookup "IT" GROUPS).isSome = true ∧
    (select_groups "IT" 0 0 0).isSome = true :=
  ⟨(C9_groups_total "IT" (by decide)).1, (C9_groups_total "IT" (by decide)).2 0 0 0⟩

/-- Claim C10: for every finite used set and base, the suffix search loop run
with its fuel bound finds a suffix at least 2 whose combination is unused: the
collision loop always terminates. -/
theorem C10_suffix_search_terminates : ∀ (used : List String) (base : String),
    ∃ k, findSuffix used base (used.length + 1) 2 = some k ∧ 2 ≤ k ∧
      base ++ natRepr k ∉ used := by
  intro used base
  obtain ⟨k, hk⟩ := findSuffix_total used base
  obtain ⟨hfree, _⟩ := findSuffix_spec (used.length + 1) 2 k hk
  exact ⟨k, hk, findSuffix_ge (used.length + 1) 2 k hk, hfree⟩

end UserGen
